import Mathlib

/-!
Verification of the Budget-Expense-Tracker single-page application
(src/script.js) against its natural-language specification.

The script keeps an array `expenses` of records `{id, amount, date,
category, description}`; it loads the array from localStorage, filters it
by category and time period, sorts it by descending date, and computes
insight statistics.  The embedding below translates each of those pieces:

* JavaScript numbers (amounts) are modelled as rationals `ℚ`, `NaN` as
  `Option.none` where it can arise (`parseFloat` of a non-numeric input).
* A record's `date` field is the `"YYYY-MM-DD"` string the date input
  produces; `new Date(str)` turns it into a millisecond timestamp, which
  `Ymd.ms` computes with the proleptic-Gregorian day-number algorithm the
  ECMAScript `MakeDay` operation specifies (the model works in UTC, the
  offset cancels in every comparison the script makes).
* `JSON.parse` is modelled by an executable JSON grammar over the stored
  string; an input the grammar rejects is exactly an input on which
  `JSON.parse` throws, which line 37 of the script does not catch.
* `Array.prototype.sort` is stable by the ECMAScript 2019 specification;
  the model realises the comparator `(a, b) => new Date(b.date) - new
  Date(a.date)` with a stable insertion sort.
-/

namespace BudgetTracker

/-! ## JSON values and the `JSON.parse` grammar (script.js line 37) -/

/-- A parsed JSON value, as `JSON.parse` would return it. -/
inductive Json where
  | null : Json
  | bool : Bool → Json
  | num : ℚ → Json
  | str : String → Json
  | arr : List Json → Json
  | obj : List (String × Json) → Json

/-- JSON insignificant whitespace. -/
def isJsonWs (c : Char) : Bool :=
  c = ' ' || c = '\t' || c = '\n' || c = '\r'

/-- Drop leading JSON whitespace. -/
def skipWs : List Char → List Char
  | [] => []
  | c :: cs => if isJsonWs c then skipWs cs else c :: cs

/-- Split a longest prefix of decimal digits from the input. -/
def takeDigits : List Char → List Char × List Char
  | [] => ([], [])
  | c :: cs =>
    if c.isDigit then
      let p := takeDigits cs
      (c :: p.1, p.2)
    else ([], c :: cs)

/-- Value of a string of decimal digits. -/
def digitsVal (ds : List Char) : Nat :=
  ds.foldl (fun n c => n * 10 + (c.toNat - 48)) 0

/-- Parse a JSON number (`-?int frac? exp?`, no leading zeros) into an
exact rational. -/
def parseNum (cs : List Char) : Option (ℚ × List Char) :=
  let sgn : Bool × List Char :=
    match cs with
    | '-' :: r => (true, r)
    | _ => (false, cs)
  match takeDigits sgn.2 with
  | ([], _) => none
  | (d :: ds, cs2) =>
    if d = '0' ∧ ds ≠ [] then none
    else
      let ipart : ℚ := (digitsVal (d :: ds) : ℚ)
      let fr : Option (ℚ × List Char) :=
        match cs2 with
        | '.' :: r =>
          match takeDigits r with
          | ([], _) => none
          | (fds, cs3) =>
            some (ipart + (digitsVal fds : ℚ) / ((10 : ℚ) ^ fds.length), cs3)
        | _ => some (ipart, cs2)
      match fr with
      | none => none
      | some (mant, cs3) =>
        let ex : Option (Int × List Char) :=
          match cs3 with
          | 'e' :: r | 'E' :: r =>
            let sg : Int × List Char :=
              match r with
              | '+' :: rr => (1, rr)
              | '-' :: rr => (-1, rr)
              | _ => (1, r)
            match takeDigits sg.2 with
            | ([], _) => none
            | (eds, cs4) => some (sg.1 * (digitsVal eds : Int), cs4)
          | _ => some (0, cs3)
        match ex with
        | none => none
        | some (e, cs4) =>
          let base : ℚ := mant * (10 : ℚ) ^ e
          some (if sgn.1 then -base else base, cs4)

/-- Value of one hexadecimal digit. -/
def hexVal (c : Char) : Option Nat :=
  if '0' ≤ c ∧ c ≤ '9' then some (c.toNat - 48)
  else if 'a' ≤ c ∧ c ≤ 'f' then some (c.toNat - 87)
  else if 'A' ≤ c ∧ c ≤ 'F' then some (c.toNat - 55)
  else none

/-- Parse the body of a JSON string after the opening quote: escape
sequences are decoded, an unescaped control character or a missing closing
quote is an error.  The fuel is at least the input length, so it never
runs out. -/
def parseStrBody : Nat → List Char → Option (List Char × List Char)
  | 0, _ => none
  | _ + 1, [] => none
  | fuel + 1, c :: cs =>
    if c = '"' then some ([], cs)
    else if c = '\\' then
      match cs with
      | [] => none
      | e :: cs2 =>
        let esc : Option (Char × List Char) :=
          if e = '"' then some ('"', cs2)
          else if e = '\\' then some ('\\', cs2)
          else if e = '/' then some ('/', cs2)
          else if e = 'b' then some ('\x08', cs2)
          else if e = 'f' then some ('\x0c', cs2)
          else if e = 'n' then some ('\n', cs2)
          else if e = 'r' then some ('\r', cs2)
          else if e = 't' then some ('\t', cs2)
          else if e = 'u' then
            match cs2 with
            | h1 :: h2 :: h3 :: h4 :: cs3 =>
              match hexVal h1, hexVal h2, hexVal h3, hexVal h4 with
              | some a, some b, some c2, some d =>
                some (Char.ofNat (((a * 16 + b) * 16 + c2) * 16 + d), cs3)
              | _, _, _, _ => none
            | _ => none
          else none
        match esc with
        | none => none
        | some (ch, rest) =>
          match parseStrBody fuel rest with
          | none => none
          | some (s, r2) => some (ch :: s, r2)
    else if c.toNat < 32 then none
    else
      match parseStrBody fuel cs with
      | none => none
      | some (s, r2) => some (c :: s, r2)

mutual

/-- Parse one JSON value (after optional whitespace). -/
def parseVal : Nat → List Char → Option (Json × List Char)
  | 0, _ => none
  | fuel + 1, cs =>
    match skipWs cs with
    | 'n' :: 'u' :: 'l' :: 'l' :: r => some (Json.null, r)
    | 't' :: 'r' :: 'u' :: 'e' :: r => some (Json.bool true, r)
    | 'f' :: 'a' :: 'l' :: 's' :: 'e' :: r => some (Json.bool false, r)
    | '"' :: r =>
      match parseStrBody (r.length + 1) r with
      | some (s, r2) => some (Json.str (String.mk s), r2)
      | none => none
    | '\x5b' :: r =>
      (match skipWs r with
       | ']' :: r2 => some (Json.arr [], r2)
       | r2 =>
         match parseItems fuel r2 with
         | some (xs, r3) => some (Json.arr xs, r3)
         | none => none)
    | '\x7b' :: r =>
      (match skipWs r with
       | '\x7d' :: r2 => some (Json.obj [], r2)
       | r2 =>
         match parseMembers fuel r2 with
         | some (kvs, r3) => some (Json.obj kvs, r3)
         | none => none)
    | cs2 =>
      match parseNum cs2 with
      | some (q, r) => some (Json.num q, r)
      | none => none

/-- Parse the comma-separated elements of a non-empty JSON array, up to
and including the closing bracket. -/
def parseItems : Nat → List Char → Option (List Json × List Char)
  | 0, _ => none
  | fuel + 1, cs =>
    match parseVal fuel cs with
    | none => none
    | some (v, r) =>
      match skipWs r with
      | ',' :: r2 =>
        match parseItems fuel r2 with
        | none => none
        | some (vs, r3) => some (v :: vs, r3)
      | ']' :: r2 => some ([v], r2)
      | _ => none

/-- Parse the members of a non-empty JSON object, up to and including the
closing brace. -/
def parseMembers : Nat → List Char → Option (List (String × Json) × List Char)
  | 0, _ => none
  | fuel + 1, cs =>
    match skipWs cs with
    | '"' :: r =>
      match parseStrBody (r.length + 1) r with
      | none => none
      | some (k, r2) =>
        match skipWs r2 with
        | ':' :: r3 =>
          match parseVal fuel r3 with
          | none => none
          | some (v, r4) =>
            match skipWs r4 with
            | ',' :: r5 =>
              match parseMembers fuel r5 with
              | none => none
              | some (kvs, r6) => some ((String.mk k, v) :: kvs, r6)
            | '\x7d' :: r5 => some ([(String.mk k, v)], r5)
            | _ => none
        | _ => none
    | _ => none

end

/-- The whole-text JSON parse: a value followed only by whitespace.
`parseJson s = none` exactly when `JSON.parse(s)` throws a `SyntaxError`.
The fuel `2 * length + 2` dominates the recursion depth, every second
call consumes at least one character. -/
def parseJson (s : String) : Option Json :=
  match parseVal (2 * s.data.length + 2) s.data with
  | none => none
  | some (v, rest) => if skipWs rest = [] then some v else none

/-- JavaScript truthiness of a parsed JSON value (`false`, `0`, `""` and
`null` are falsy; every array and object is truthy). -/
def jsTruthy : Json → Bool
  | Json.null => false
  | Json.bool b => b
  | Json.num q => decide (q ≠ 0)
  | Json.str s => decide (s ≠ "")
  | Json.arr _ => true
  | Json.obj _ => true

/-- Line 37, `let expenses = JSON.parse(localStorage.getItem("expenses")) || [];`.
`getItem` returns `null` when the key is absent, and `JSON.parse(null)`
stringifies its argument to `"null"`.  A string the JSON grammar rejects
makes `JSON.parse` throw, which nothing catches: that is the
`Except.error` outcome.  Otherwise `|| []` replaces a falsy parse result
with the empty array and keeps any truthy value unchanged. -/
def loadExpenses (stored : Option String) : Except Unit Json :=
  match parseJson (stored.getD "null") with
  | none => Except.error ()
  | some v => Except.ok (if jsTruthy v then v else Json.arr [])

/-! ## Dates and records -/

/-- Day number of a proleptic-Gregorian calendar date, days since
1970-01-01, the algorithm ECMAScript `MakeDay`/`MakeDate` specify
(`Int` division in Lean is Euclidean, hence floor division for the
positive divisors used here). -/
def civilDays (y m d : Int) : Int :=
  let y2 := if m ≤ 2 then y - 1 else y
  let era := y2 / 400
  let yoe := y2 - era * 400
  let mp := (m + 9) % 12
  let doy := (153 * mp + 2) / 5 + d - 1
  let doe := yoe * 365 + yoe / 4 - yoe / 100 + doy
  era * 146097 + doe - 719468

/-- A calendar date as the `"YYYY-MM-DD"` value of the form's date input. -/
structure Ymd where
  y : Int
  m : Int
  d : Int
deriving DecidableEq

/-- Millisecond timestamp of `new Date("YYYY-MM-DD")` (UTC midnight). -/
def Ymd.ms (x : Ymd) : Int :=
  civilDays x.y x.m x.d * 86400000

/-- One expense record, the object built in the submit handler
(lines 297-303). -/
structure Expense where
  id : Int
  amount : ℚ
  date : Ymd
  category : String
  description : String
deriving DecidableEq

/-- Timestamp of a record's date, `new Date(exp.date)` as a number. -/
def dateMs (e : Expense) : Int :=
  e.date.ms

/-- The wall clock at filter-evaluation time: calendar date plus the
milliseconds elapsed within that day. -/
structure NowTime where
  y : Int
  m : Int
  d : Int
  msOfDay : Int
deriving DecidableEq

/-- Millisecond timestamp of `new Date()` now. -/
def nowMs (n : NowTime) : Int :=
  civilDays n.y n.m n.d * 86400000 + n.msOfDay

/-- Line 241, `new Date(now.setDate(now.getDate() - 7))`: `MakeDay` with
day-of-month `d - 7` lands exactly seven days before `now`. -/
def weeklyCutoff (n : NowTime) : Int :=
  nowMs n - 7 * 86400000

/-- Line 246, `new Date(now.setMonth(now.getMonth() - 1))`: the month
index is decremented (borrowing a year below January) and `MakeDay`
re-anchors the same day-of-month in that month, letting an overflowing
day roll forward, exactly the ECMAScript semantics. -/
def monthlyCutoff (n : NowTime) : Int :=
  let y2 := if n.m = 1 then n.y - 1 else n.y
  let m2 := if n.m = 1 then 12 else n.m - 1
  (civilDays y2 m2 1 + (n.d - 1)) * 86400000 + n.msOfDay

/-! ## Filtering and sorting (`applyFilters`, lines 225-258) -/

/-- Lines 229-250: copy of the ledger, category filter (`===`, only when
the selection is not `"All"`), then the period filter against the
cutoff. Any period value other than `"Weekly"`/`"Monthly"` keeps all. -/
def filterExpenses (expenses : List Expense) (category period : String)
    (now : NowTime) : List Expense :=
  let afterCat :=
    if category ≠ "All" then
      expenses.filter (fun e => e.category == category)
    else expenses
  if period = "Weekly" then
    afterCat.filter (fun e => decide (weeklyCutoff now ≤ dateMs e))
  else if period = "Monthly" then
    afterCat.filter (fun e => decide (monthlyCutoff now ≤ dateMs e))
  else afterCat

/-- Stable insertion step for the comparator
`(a, b) => new Date(b.date) - new Date(a.date)`: an element is placed
before the first element whose date does not exceed its own, so an
earlier-inserted element stays first on equal dates. -/
def insertByDate (x : Expense) : List Expense → List Expense
  | [] => [x]
  | y :: ys =>
    if dateMs y ≤ dateMs x then x :: y :: ys else y :: insertByDate x ys

/-- Line 253, `filteredExpenses.sort(...)`: `Array.prototype.sort` is
stable (ECMAScript 2019), realised here as a stable insertion sort into
descending date order. -/
def sortByDateDesc : List Expense → List Expense
  | [] => []
  | x :: xs => insertByDate x (sortByDateDesc xs)

/-- `applyFilters` as a state transformer: the first component is the
binding `expenses` after the call (the spread `[...expenses]` on
line 229 copies the array, so the in-place sort touches only the copy),
the second is the filtered, sorted list handed to the renderers. -/
def applyFilters (expenses : List Expense) (category period : String)
    (now : NowTime) : List Expense × List Expense :=
  (expenses, sortByDateDesc (filterExpenses expenses category period now))

/-! ## Insights (`updateInsights`, lines 80-121) -/

/-- Line 98, `acc[exp.category] = (acc[exp.category] || 0) + exp.amount`
on a plain object: an existing key keeps its position, a new key is
appended, matching JavaScript's insertion-order key enumeration for
non-index string keys. -/
def updateAssoc : List (String × ℚ) → String → ℚ → List (String × ℚ)
  | [], c, a => [(c, a)]
  | (k, v) :: rest, c, a =>
    if k = c then (k, v + a) :: rest else (k, v) :: updateAssoc rest c a

/-- Lines 97-100: per-category totals built in one pass. -/
def categorySpends (rs : List Expense) : List (String × ℚ) :=
  rs.foldl (fun acc e => updateAssoc acc e.category e.amount) []

/-- Property lookup `categorySpends[k]`: `none` plays `undefined`. -/
def lookupSpend : List (String × ℚ) → String → Option ℚ
  | [], _ => none
  | (k, v) :: rest, c => if k = c then some v else lookupSpend rest c

/-- The JavaScript comparison `categorySpends[a] > categorySpends[b]`:
any comparison against `undefined` is false. -/
def jsGtOpt : Option ℚ → Option ℚ → Bool
  | some a, some b => decide (b < a)
  | _, _ => false

/-- The reducer of lines 102-105 over a key list, starting from the seed
accumulator `"-"` (whose lookup is `undefined`). -/
def pickMax (m : List (String × ℚ)) (a : String) (ks : List String) : String :=
  ks.foldl (fun x y => if jsGtOpt (lookupSpend m x) (lookupSpend m y) then x else y) a

/-- Lines 102-105, `Object.keys(categorySpends).reduce((a, b) =>
categorySpends[a] > categorySpends[b] ? a : b, "-")`. -/
def highestCategory (m : List (String × ℚ)) : String :=
  pickMax m "-" (m.map Prod.fst)

/-- Total of a category, defaulting a missing key to 0 (used only in
statements, every key of the map has a value). -/
def spendOf (m : List (String × ℚ)) (k : String) : ℚ :=
  (lookupSpend m k).getD 0

/-- Lines 90-93: `reduce((sum, exp) => sum + exp.amount, 0)`. -/
def totalSpendOf (rs : List Expense) : ℚ :=
  rs.foldl (fun s e => s + e.amount) 0

/-- Line 109-111, `Math.min(...currentExpenses.map(e => new Date(e.date)))`
(meaningful only for a non-empty list, as in the source). -/
def minDateMs : List Expense → Int
  | [] => 0
  | r :: rest => (rest.map dateMs).foldl min (dateMs r)

/-- Line 112-114, `Math.max(...)` over the same timestamps. -/
def maxDateMs : List Expense → Int
  | [] => 0
  | r :: rest => (rest.map dateMs).foldl max (dateMs r)

/-- Line 115, `(lastDate - firstDate) / (1000*60*60*24*7) + 1`, exact in ℚ. -/
def weekSpan (rs : List Expense) : ℚ :=
  ((maxDateMs rs - minDateMs rs : Int) : ℚ) / (1000 * 60 * 60 * 24 * 7) + 1

/-- What `updateInsights` writes into the insights panel. -/
structure Insights where
  totalSpend : ℚ
  topCategory : String
  avgWeekly : ℚ
  suggestion : String
deriving DecidableEq

/-- Lines 80-121: the empty branch writes the placeholders, otherwise
total, top category, average weekly spend over the inclusive week span,
and the templated suggestion. -/
def updateInsights : List Expense → Insights
  | [] => ⟨0, "-", 0, "Add an expense to get started!"⟩
  | r :: rest =>
    let total := totalSpendOf (r :: rest)
    let highest := highestCategory (categorySpends (r :: rest))
    ⟨total, highest, total / weekSpan (r :: rest),
      "You\x27re spending the most on " ++ highest ++
        ". Consider reviewing this category."⟩

/-- Modelled from the spec: the claim C3 tie-break, "the first category
reaching the maximum value in iteration order over categoryTotals".
The maximal total of the mapping... -/
def maxSpendVal : List (String × ℚ) → ℚ
  | [] => 0
  | (_, v) :: rest => (rest.map Prod.snd).foldl max v

/-- Modelled from the spec: the first key of the mapping, in iteration
order, whose total equals the maximal total. -/
def firstMaxCategory (m : List (String × ℚ)) : String :=
  match m.find? (fun kv => kv.2 == maxSpendVal m) with
  | some kv => kv.1
  | none => "-"

/-! ## The submit handler (lines 284-318) -/

/-- The page state the handler touches: the in-memory array and the
snapshot last written to localStorage by `saveExpenses`. -/
structure AppState where
  expenses : List Expense
  stored : List Expense
deriving DecidableEq

/-- One form submission: `parseFloat(amountInput.value)` with `none` for
`NaN`, the date input's value with `none` for the empty string, the
selected category, the description, and `Date.now()` in milliseconds. -/
structure FormInput where
  amount : Option ℚ
  date : Option Ymd
  category : String
  description : String
  now : Int
deriving DecidableEq

/-- Lines 284-307: `if (!amount || !date || !category)` rejects exactly a
`NaN` or zero amount, an empty date and an empty category (a negative
amount is truthy and passes); an accepted record is appended with
`id: Date.now()` and the whole array is re-saved. -/
def handleSubmit (st : AppState) (amount : Option ℚ) (date : Option Ymd)
    (category description : String) (nowId : Int) : AppState × Bool :=
  match amount, date with
  | some a, some dte =>
    if a = 0 ∨ category = "" then (st, false)
    else
      let es := st.expenses ++ [⟨nowId, a, dte, category, description⟩]
      (⟨es, es⟩, true)
  | _, _ => (st, false)

/-- A sequence of form submissions, each running the submit handler on
the state the previous one left. -/
def submitAll (st : AppState) (inputs : List FormInput) : AppState :=
  inputs.foldl
    (fun s i => (handleSubmit s i.amount i.date i.category i.description i.now).1) st

/-! ## Concrete fixtures used by counterexamples and witnesses -/

/-- Two records in distinct categories with equal amounts: a tie for the
top category. -/
def exTie : List Expense :=
  [⟨1, 1, ⟨2024, 1, 1⟩, "A", ""⟩, ⟨2, 1, ⟨2024, 1, 2⟩, "B", ""⟩]

/-- The spec's worked example: 100 on 2024-01-01 and 50 on 2024-01-08,
both in category Food. -/
def exSpec : List Expense :=
  [⟨1, 100, ⟨2024, 1, 1⟩, "Food", ""⟩, ⟨2, 50, ⟨2024, 1, 8⟩, "Food", ""⟩]

/-- The page state right after a fresh load with no stored data. -/
def st0 : AppState := ⟨[], []⟩

/-- A valid submission at millisecond 1000. -/
def inTime1000 : FormInput := ⟨some 1, some ⟨2024, 1, 1⟩, "Food", "", 1000⟩

/-- A second valid submission in the same millisecond. -/
def inTime1000b : FormInput := ⟨some 2, some ⟨2024, 1, 2⟩, "Travel", "", 1000⟩

/-- A valid submission one millisecond later. -/
def inTime1001 : FormInput := ⟨some 2, some ⟨2024, 1, 2⟩, "Travel", "", 1001⟩

end BudgetTracker

namespace BudgetTracker

/-! ## Helper lemmas -/

theorem insertByDate_perm (x : Expense) (l : List Expense) :
    List.Perm (insertByDate x l) (x :: l) := by
  induction l with
  | nil => simp [insertByDate]
  | cons y ys ih =>
    by_cases h : dateMs y ≤ dateMs x
    · simp [insertByDate, h]
    · simp only [insertByDate, if_neg h]
      exact (ih.cons y).trans (List.Perm.swap x y ys)

theorem sortByDateDesc_perm (l : List Expense) :
    List.Perm (sortByDateDesc l) l := by
  induction l with
  | nil => simp [sortByDateDesc]
  | cons x xs ih => exact (insertByDate_perm x _).trans (ih.cons x)

theorem mem_sortByDateDesc {a : Expense} {l : List Expense} :
    a ∈ sortByDateDesc l ↔ a ∈ l :=
  (sortByDateDesc_perm l).mem_iff

theorem pairwise_insertByDate (x : Expense) (l : List Expense)
    (h : List.Pairwise (fun a b => dateMs b ≤ dateMs a) l) :
    List.Pairwise (fun a b => dateMs b ≤ dateMs a) (insertByDate x l) := by
  induction l with
  | nil => simp [insertByDate]
  | cons y ys ih =>
    rcases List.pairwise_cons.mp h with ⟨hy, hys⟩
    by_cases hc : dateMs y ≤ dateMs x
    · simp only [insertByDate, if_pos hc]
      refine List.pairwise_cons.mpr ⟨?_, h⟩
      intro b hb
      rcases List.mem_cons.mp hb with hb | hb
      · exact hb ▸ hc
      · exact le_trans (hy b hb) hc
    · simp only [insertByDate, if_neg hc]
      refine List.pairwise_cons.mpr ⟨?_, ih hys⟩
      intro b hb
      rcases List.mem_cons.mp ((insertByDate_perm x ys).mem_iff.mp hb) with hb | hb
      · exact hb ▸ (le_of_lt (lt_of_not_le hc))
      · exact hy b hb

theorem sorted_sortByDateDesc (l : List Expense) :
    List.Pairwise (fun a b => dateMs b ≤ dateMs a) (sortByDateDesc l) := by
  induction l with
  | nil => simp [sortByDateDesc]
  | cons x xs ih => exact pairwise_insertByDate x _ ih

theorem filter_insertByDate (x : Expense) (l : List Expense) (t : Int) :
    (insertByDate x l).filter (fun e => decide (dateMs e = t)) =
      if dateMs x = t then x :: l.filter (fun e => decide (dateMs e = t))
      else l.filter (fun e => decide (dateMs e = t)) := by
  induction l with
  | nil => by_cases h : dateMs x = t <;> simp [insertByDate, h]
  | cons y ys ih =>
    by_cases hc : dateMs y ≤ dateMs x
    · simp only [insertByDate, if_pos hc, List.filter_cons]
      by_cases hx : dateMs x = t <;> by_cases hy : dateMs y = t <;> simp [hx, hy]
    · simp only [insertByDate, if_neg hc, List.filter_cons, ih]
      by_cases hx : dateMs x = t
      · have hy : ¬ dateMs y = t := by
          intro hyt
          exact hc (le_of_eq (hyt.trans hx.symm))
        simp [hx, hy]
      · simp [hx]

theorem filter_sortByDateDesc (l : List Expense) (t : Int) :
    (sortByDateDesc l).filter (fun e => decide (dateMs e = t)) =
      l.filter (fun e => decide (dateMs e = t)) := by
  induction l with
  | nil => simp [sortByDateDesc]
  | cons x xs ih =>
    by_cases hx : dateMs x = t <;>
      simp [sortByDateDesc, filter_insertByDate, hx, List.filter_cons, ih]

theorem filterExpenses_sublist (es : List Expense) (c p : String) (now : NowTime) :
    List.Sublist (filterExpenses es c p now) es := by
  have hcat : List.Sublist
      (if c ≠ "All" then es.filter (fun e => e.category == c) else es) es := by
    by_cases hc : c ≠ "All"
    · rw [if_pos hc]
      exact List.filter_sublist es
    · rw [if_neg hc]
  simp only [filterExpenses]
  by_cases hw : p = "Weekly"
  · rw [if_pos hw]
    exact (List.filter_sublist _).trans hcat
  · rw [if_neg hw]
    by_cases hm : p = "Monthly"
    · rw [if_pos hm]
      exact (List.filter_sublist _).trans hcat
    · rw [if_neg hm]
      exact hcat

theorem mem_filterExpenses {e : Expense} {es : List Expense} {c p : String}
    {now : NowTime} :
    e ∈ filterExpenses es c p now ↔
      e ∈ es ∧ (c ≠ "All" → e.category = c)
        ∧ (p = "Weekly" → weeklyCutoff now ≤ dateMs e)
        ∧ (p = "Monthly" → monthlyCutoff now ≤ dateMs e) := by
  unfold filterExpenses
  by_cases hc : c = "All" <;> by_cases hw : p = "Weekly" <;> by_cases hm : p = "Monthly" <;>
    first
    | exact absurd (hw ▸ hm) (by decide)
    | (simp [hc, hw, hm, List.mem_filter, and_assoc]; try tauto)

theorem foldl_add_amount (rs : List Expense) :
    ∀ a : ℚ, rs.foldl (fun s e => s + e.amount) a = a + (rs.map Expense.amount).sum := by
  induction rs with
  | nil => intro a; simp
  | cons r rest ih =>
    intro a
    simp only [List.foldl_cons, List.map_cons, List.sum_cons, ih]
    ring

theorem totalSpendOf_eq_sum (rs : List Expense) :
    totalSpendOf rs = (rs.map Expense.amount).sum := by
  simpa using foldl_add_amount rs 0

theorem foldl_min_le (l : List Int) : ∀ a : Int, l.foldl min a ≤ a := by
  induction l with
  | nil => intro a; simp
  | cons x xs ih =>
    intro a
    exact le_trans (ih (min a x)) (min_le_left a x)

theorem le_foldl_max (l : List Int) : ∀ a : Int, a ≤ l.foldl max a := by
  induction l with
  | nil => intro a; simp
  | cons x xs ih =>
    intro a
    exact le_trans (le_max_left a x) (ih (max a x))

theorem foldl_min_const (l : List Int) (a : Int) (h : ∀ x ∈ l, x = a) :
    l.foldl min a = a := by
  induction l with
  | nil => rfl
  | cons x xs ih =>
    have hx : x = a := h x (List.mem_cons_self x xs)
    simp only [List.foldl_cons, hx, min_self]
    exact ih (fun y hy => h y (List.mem_cons_of_mem x hy))

theorem foldl_max_const (l : List Int) (a : Int) (h : ∀ x ∈ l, x = a) :
    l.foldl max a = a := by
  induction l with
  | nil => rfl
  | cons x xs ih =>
    have hx : x = a := h x (List.mem_cons_self x xs)
    simp only [List.foldl_cons, hx, max_self]
    exact ih (fun y hy => h y (List.mem_cons_of_mem x hy))

theorem jsGtOpt_true_iff {o1 o2 : Option ℚ} :
    jsGtOpt o1 o2 = true ↔ ∃ a b, o1 = some a ∧ o2 = some b ∧ b < a := by
  cases o1 <;> cases o2 <;> simp [jsGtOpt]

theorem spendOf_eq {m : List (String × ℚ)} {k : String} {q : ℚ}
    (h : lookupSpend m k = some q) : spendOf m k = q := by
  simp [spendOf, h]

theorem lookupSpend_isSome_of_mem {m : List (String × ℚ)} {k : String}
    (h : k ∈ m.map Prod.fst) : (lookupSpend m k).isSome := by
  induction m with
  | nil => simp at h
  | cons kv m ih =>
    obtain ⟨k1, v1⟩ := kv
    by_cases hk : k1 = k
    · simp [lookupSpend, hk]
    · simp only [List.map_cons, List.mem_cons] at h
      rcases h with h | h
      · exact absurd h.symm hk
      · simp only [lookupSpend, if_neg hk]
        exact ih h

theorem mem_keys_of_lookupSpend {m : List (String × ℚ)} {k : String} {q : ℚ}
    (h : lookupSpend m k = some q) : k ∈ m.map Prod.fst := by
  induction m with
  | nil => simp [lookupSpend] at h
  | cons kv m ih =>
    obtain ⟨k1, v1⟩ := kv
    by_cases hk : k1 = k
    · simp [List.map_cons, hk]
    · simp only [lookupSpend, if_neg hk] at h
      simp only [List.map_cons, List.mem_cons]
      exact Or.inr (ih h)

theorem pickMax_cases (m : List (String × ℚ)) :
    ∀ (ks : List String) (a : String), (∀ k ∈ ks, (lookupSpend m k).isSome) →
      (pickMax m a ks = a ∧ ∀ k ∈ ks, jsGtOpt (lookupSpend m a) (lookupSpend m k) = true)
      ∨ (∃ pre post,
          ks = pre ++ pickMax m a ks :: post
          ∧ (∀ q, lookupSpend m a = some q → q ≤ spendOf m (pickMax m a ks))
          ∧ (∀ k ∈ pre, spendOf m k ≤ spendOf m (pickMax m a ks))
          ∧ (∀ k ∈ post, spendOf m k < spendOf m (pickMax m a ks))
          ∧ (lookupSpend m (pickMax m a ks)).isSome) := by
  intro ks
  induction ks with
  | nil =>
    intro a _
    left
    exact ⟨rfl, by simp⟩
  | cons x ks ih =>
    intro a hks
    have hx : (lookupSpend m x).isSome := hks x (List.mem_cons_self x ks)
    obtain ⟨qx, hqx⟩ := Option.isSome_iff_exists.mp hx
    have hks' : ∀ k ∈ ks, (lookupSpend m k).isSome :=
      fun k hk => hks k (List.mem_cons_of_mem x hk)
    by_cases hc : jsGtOpt (lookupSpend m a) (lookupSpend m x) = true
    · have heq : pickMax m a (x :: ks) = pickMax m a ks := by
        simp [pickMax, hc]
      obtain ⟨qa, qx2, hqa, hqx2, hlt⟩ := jsGtOpt_true_iff.mp hc
      rcases ih a hks' with ⟨h1, h2⟩ | ⟨pre, post, hsplit, haLe, hpre, hpost, hsome⟩
      · left
        rw [heq, h1]
        refine ⟨rfl, ?_⟩
        intro k hk
        rcases List.mem_cons.mp hk with hk | hk
        · exact hk ▸ hc
        · exact h2 k hk
      · right
        rw [heq]
        refine ⟨x :: pre, post, by rw [List.cons_append, ← hsplit], haLe, ?_, hpost, hsome⟩
        intro k hk
        rcases List.mem_cons.mp hk with hk | hk
        · subst hk
          rw [spendOf_eq hqx2]
          exact le_of_lt (lt_of_lt_of_le hlt (haLe qa hqa))
        · exact hpre k hk
    · have hc2 : jsGtOpt (lookupSpend m a) (lookupSpend m x) = false :=
        Bool.not_eq_true _ ▸ eq_false_of_ne_true hc
      have heq : pickMax m a (x :: ks) = pickMax m x ks := by
        simp [pickMax, hc2]
      rcases ih x hks' with ⟨h1, h2⟩ | ⟨pre, post, hsplit, hxLe, hpre, hpost, hsome⟩
      · right
        rw [heq, h1]
        refine ⟨[], ks, rfl, ?_, by simp, ?_, hx⟩
        · intro q hq
          rw [spendOf_eq hqx]
          rw [hq, hqx] at hc
          simpa [jsGtOpt, not_lt] using hc
        · intro k hk
          obtain ⟨qx2, qk, hqx2, hqk, hlt⟩ := jsGtOpt_true_iff.mp (h2 k hk)
          rw [spendOf_eq hqk, spendOf_eq hqx2]
          exact hlt
      · right
        rw [heq]
        have hxr : qx ≤ spendOf m (pickMax m x ks) := hxLe qx hqx
        refine ⟨x :: pre, post, by rw [List.cons_append, ← hsplit], ?_, ?_, hpost, hsome⟩
        · intro q hq
          rw [hq, hqx] at hc
          have hle : q ≤ qx := by simpa [jsGtOpt, not_lt] using hc
          exact le_trans hle hxr
        · intro k hk
          rcases List.mem_cons.mp hk with hk | hk
          · subst hk
            rw [spendOf_eq hqx]
            exact hxr
          · exact hpre k hk

theorem updateAssoc_ne_nil (acc : List (String × ℚ)) (c : String) (a : ℚ) :
    updateAssoc acc c a ≠ [] := by
  cases acc with
  | nil => simp [updateAssoc]
  | cons kv rest =>
    obtain ⟨k, v⟩ := kv
    by_cases h : k = c <;> simp [updateAssoc, h]

theorem foldl_spends_ne_nil (rs : List Expense) :
    ∀ acc : List (String × ℚ), acc ≠ [] →
      rs.foldl (fun acc e => updateAssoc acc e.category e.amount) acc ≠ [] := by
  induction rs with
  | nil => intro acc h; exact h
  | cons r rest ih =>
    intro acc _
    exact ih _ (updateAssoc_ne_nil acc r.category r.amount)

theorem categorySpends_ne_nil {rs : List Expense} (h : rs ≠ []) :
    categorySpends rs ≠ [] := by
  cases rs with
  | nil => exact absurd rfl h
  | cons r rest =>
    unfold categorySpends
    rw [List.foldl_cons]
    exact foldl_spends_ne_nil rest _ (updateAssoc_ne_nil [] r.category r.amount)

theorem handleSubmit_ids (st : AppState) (a : Option ℚ) (d : Option Ymd)
    (c desc : String) (n : Int) :
    (handleSubmit st a d c desc n).1.expenses.map Expense.id
        = st.expenses.map Expense.id
    ∨ (handleSubmit st a d c desc n).1.expenses.map Expense.id
        = st.expenses.map Expense.id ++ [n] := by
  rcases a with _ | q <;> rcases d with _ | dd <;> simp [handleSubmit]
  by_cases hc : q = 0 ∨ c = ""
  · simp [hc]
  · simp [hc]

theorem submitAll_ids (inputs : List FormInput) :
    ∀ st : AppState,
      ∃ l, (submitAll st inputs).expenses.map Expense.id
              = st.expenses.map Expense.id ++ l
        ∧ List.Sublist l (inputs.map FormInput.now) := by
  induction inputs with
  | nil =>
    intro st
    exact ⟨[], by simp [submitAll], List.nil_sublist _⟩
  | cons i rest ih =>
    intro st
    have hstep : submitAll st (i :: rest)
        = submitAll ((handleSubmit st i.amount i.date i.category i.description i.now).1) rest := rfl
    obtain ⟨l, hl, hsub⟩ := ih ((handleSubmit st i.amount i.date i.category i.description i.now).1)
    rcases handleSubmit_ids st i.amount i.date i.category i.description i.now with hid | hid
    · refine ⟨l, ?_, ?_⟩
      · rw [hstep, hl, hid]
      · exact List.Sublist.cons i.now hsub
    · refine ⟨i.now :: l, ?_, ?_⟩
      · rw [hstep, hl, hid]
        simp
      · exact List.Sublist.cons₂ i.now hsub

/-! ## Claim theorems -/

/-- Claim C1, counterexample: the claim says loading never raises an error
for any stored string, but line 37 calls `JSON.parse` outside any
try/catch, so the stored one-character string consisting of an opening
brace — and likewise the empty string — makes initial load throw a
`SyntaxError` instead of falling back to the empty ledger. -/
theorem C1_counterexample :
    loadExpenses (some "\x7b") = Except.error ()
    ∧ loadExpenses (some "") = Except.error () :=
  ⟨rfl, rfl⟩

/-- Claim C1, amended: when the key is absent the ledger starts empty;
when the stored string parses as a falsy JSON value the ledger starts
empty; but a stored string the JSON grammar rejects makes the load throw
(it is not recovered), and a truthy parsed value of any shape is used as
the ledger unvalidated. -/
theorem C1_load_behavior :
    loadExpenses none = Except.ok (Json.arr [])
    ∧ (∀ s : String, parseJson s = none → loadExpenses (some s) = Except.error ())
    ∧ (∀ s : String, ∀ v : Json, parseJson s = some v → jsTruthy v = false →
        loadExpenses (some s) = Except.ok (Json.arr []))
    ∧ (∀ s : String, ∀ v : Json, parseJson s = some v → jsTruthy v = true →
        loadExpenses (some s) = Except.ok v) := by
  refine ⟨rfl, ?_, ?_, ?_⟩
  · intro s h
    simp [loadExpenses, h]
  · intro s v h ht
    simp [loadExpenses, h, ht]
  · intro s v h ht
    simp [loadExpenses, h, ht]

/-- Claim C2: a record is in the `applyFilters` result exactly when it is
in the ledger, matches the selected category exactly (unless the
selection is the sentinel All), and its date is on or after the period
cutoff: now minus 7 days for Weekly, now minus one calendar month
(ECMAScript `setMonth`, calendar-aware) for Monthly, no date constraint
otherwise. -/
theorem C2_filter_sound_complete (es : List Expense) (c p : String)
    (now : NowTime) (e : Expense) :
    e ∈ (applyFilters es c p now).2 ↔
      e ∈ es ∧ (c ≠ "All" → e.category = c)
        ∧ (p = "Weekly" → weeklyCutoff now ≤ dateMs e)
        ∧ (p = "Monthly" → monthlyCutoff now ≤ dateMs e) := by
  unfold applyFilters
  rw [mem_sortByDateDesc]
  exact mem_filterExpenses

/-- Claim C3, counterexample: on two categories tied for the maximal sum
the reducer of lines 102-105 keeps the accumulator only on a strict
comparison, so it returns the last tied category in iteration order, not
the first as the claim states. -/
theorem C3_counterexample :
    highestCategory (categorySpends exTie) = "B"
    ∧ firstMaxCategory (categorySpends exTie) = "A"
    ∧ ("B" : String) ≠ "A" :=
  ⟨rfl, rfl, by decide⟩

/-- Claim C3, amended: for a non-empty record sequence the computed top
category is a category of maximal summed amount, and among the tied ones
it is the last to reach the maximum in iteration order over the
category-totals mapping: every key before it totals no more, every key
after it totals strictly less. -/
theorem C3_top_is_last_max (rs : List Expense) (h : rs ≠ []) :
    ∃ pre post,
      (categorySpends rs).map Prod.fst
          = pre ++ highestCategory (categorySpends rs) :: post
      ∧ (∀ k ∈ pre, spendOf (categorySpends rs) k
            ≤ spendOf (categorySpends rs) (highestCategory (categorySpends rs)))
      ∧ (∀ k ∈ post, spendOf (categorySpends rs) k
            < spendOf (categorySpends rs) (highestCategory (categorySpends rs))) := by
  have hmne : categorySpends rs ≠ [] := categorySpends_ne_nil h
  have hkeys : ∀ k ∈ (categorySpends rs).map Prod.fst,
      (lookupSpend (categorySpends rs) k).isSome :=
    fun k hk => lookupSpend_isSome_of_mem hk
  rcases pickMax_cases (categorySpends rs) ((categorySpends rs).map Prod.fst) "-" hkeys with
    ⟨h1, h2⟩ | ⟨pre, post, hsplit, _, hpre, hpost, _⟩
  · exfalso
    obtain ⟨kv, m2, hm2⟩ : ∃ kv m2, categorySpends rs = kv :: m2 := by
      cases hmm : categorySpends rs with
      | nil => exact absurd hmm hmne
      | cons kv m2 => exact ⟨kv, m2, rfl⟩
    have hk0 : kv.1 ∈ (categorySpends rs).map Prod.fst := by
      rw [hm2]
      simp
    obtain ⟨qa, qb, hqa, hqb, hlt⟩ := jsGtOpt_true_iff.mp (h2 kv.1 hk0)
    have hmem : "-" ∈ (categorySpends rs).map Prod.fst := mem_keys_of_lookupSpend hqa
    obtain ⟨q1, q2, he1, he2, hlt2⟩ := jsGtOpt_true_iff.mp (h2 "-" hmem)
    rw [he1] at he2
    injection he2 with he3
    exact absurd (he3 ▸ hlt2) (lt_irrefl q1)
  · exact ⟨pre, post, hsplit, hpre, hpost⟩

/-- Claim C3, witness: the amended theorem applied to the concrete tied
example. -/
theorem C3_top_is_last_max_witness :
    ∃ pre post,
      (categorySpends exTie).map Prod.fst
          = pre ++ highestCategory (categorySpends exTie) :: post
      ∧ (∀ k ∈ pre, spendOf (categorySpends exTie) k
            ≤ spendOf (categorySpends exTie) (highestCategory (categorySpends exTie)))
      ∧ (∀ k ∈ post, spendOf (categorySpends exTie) k
            < spendOf (categorySpends exTie) (highestCategory (categorySpends exTie))) :=
  C3_top_is_last_max exTie (by simp [exTie])

/-- Claim C4: the query result is sorted by descending date; the records
carrying any fixed date appear in the result exactly as they appear in
the pre-sort filtered list, which is itself a sublist of the ledger, so
equal-date records keep their original insertion order (the ECMAScript
sort is stable). -/
theorem C4_sorted_stable (es : List Expense) (c p : String) (now : NowTime) :
    List.Pairwise (fun a b => dateMs b ≤ dateMs a) (applyFilters es c p now).2
    ∧ (∀ t : Int, (applyFilters es c p now).2.filter (fun e => decide (dateMs e = t))
        = (filterExpenses es c p now).filter (fun e => decide (dateMs e = t)))
    ∧ List.Sublist (filterExpenses es c p now) es :=
  ⟨sorted_sortByDateDesc _,
   fun t => filter_sortByDateDesc _ t,
   filterExpenses_sublist es c p now⟩

/-- Claim C5: for a non-empty sequence the average weekly spend is the
total divided by the inclusive week span, the week span is the day
difference between latest and earliest dates divided by 7 plus one, an
all-same-date sequence gives span 1, the span is never below 1 (so the
division is never by zero), and the spec's two-record example evaluates
to total 150, span 2 and average 75. -/
theorem C5_weekly_average (rs : List Expense) (h : rs ≠ []) :
    (updateInsights rs).avgWeekly = (updateInsights rs).totalSpend / weekSpan rs
    ∧ weekSpan rs = ((maxDateMs rs - minDateMs rs : Int) : ℚ) / 86400000 / 7 + 1
    ∧ ((∀ e ∈ rs, ∀ f ∈ rs, dateMs e = dateMs f) → weekSpan rs = 1)
    ∧ 1 ≤ weekSpan rs
    ∧ (updateInsights exSpec).totalSpend = 150
    ∧ weekSpan exSpec = 2
    ∧ (updateInsights exSpec).avgWeekly = 75 := by
  obtain ⟨r, rest, rfl⟩ := List.exists_cons_of_ne_nil h
  have hspan : maxDateMs exSpec - minDateMs exSpec = 604800000 := by decide
  have hw : weekSpan exSpec = 2 := by
    rw [weekSpan, hspan]
    norm_num
  have ht : (updateInsights exSpec).totalSpend = 150 := by
    rw [show (updateInsights exSpec).totalSpend = totalSpendOf exSpec from rfl]
    norm_num [totalSpendOf, exSpec]
  have ha : (updateInsights exSpec).avgWeekly = 75 := by
    rw [show (updateInsights exSpec).avgWeekly
          = (updateInsights exSpec).totalSpend / weekSpan exSpec from rfl, ht, hw]
    norm_num
  refine ⟨by simp [updateInsights], ?_, ?_, ?_, ht, hw, ha⟩
  · unfold weekSpan
    rw [div_div]
    norm_num
  · intro hall
    have hmin : minDateMs (r :: rest) = dateMs r := by
      unfold minDateMs
      refine foldl_min_const _ _ ?_
      intro x hx
      obtain ⟨f, hf, rfl⟩ := List.mem_map.mp hx
      exact hall f (List.mem_cons_of_mem r hf) r (List.mem_cons_self r rest)
    have hmax : maxDateMs (r :: rest) = dateMs r := by
      unfold maxDateMs
      refine foldl_max_const _ _ ?_
      intro x hx
      obtain ⟨f, hf, rfl⟩ := List.mem_map.mp hx
      exact hall f (List.mem_cons_of_mem r hf) r (List.mem_cons_self r rest)
    unfold weekSpan
    rw [hmin, hmax]
    simp
  · have hle : minDateMs (r :: rest) ≤ maxDateMs (r :: rest) :=
      le_trans (foldl_min_le _ _) (le_foldl_max _ _)
    have hnn : (0 : ℚ) ≤ ((maxDateMs (r :: rest) - minDateMs (r :: rest) : Int) : ℚ) := by
      exact_mod_cast sub_nonneg.mpr hle
    unfold weekSpan
    have hq : (0 : ℚ) ≤ ((maxDateMs (r :: rest) - minDateMs (r :: rest) : Int) : ℚ)
        / (1000 * 60 * 60 * 24 * 7) := by
      apply div_nonneg hnn
      norm_num
    linarith

/-- Claim C5, witness: the theorem applied to the spec's worked example. -/
theorem C5_weekly_average_witness :
    (updateInsights exSpec).avgWeekly = (updateInsights exSpec).totalSpend / weekSpan exSpec
    ∧ weekSpan exSpec = ((maxDateMs exSpec - minDateMs exSpec : Int) : ℚ) / 86400000 / 7 + 1
    ∧ ((∀ e ∈ exSpec, ∀ f ∈ exSpec, dateMs e = dateMs f) → weekSpan exSpec = 1)
    ∧ 1 ≤ weekSpan exSpec
    ∧ (updateInsights exSpec).totalSpend = 150
    ∧ weekSpan exSpec = 2
    ∧ (updateInsights exSpec).avgWeekly = 75 :=
  C5_weekly_average exSpec (by simp [exSpec])

/-- Claim C6: on the empty record sequence the insights computation
returns total 0, top category the placeholder dash, average weekly spend
0 and the fixed get-started message, without failing. -/
theorem C6_empty_insights :
    updateInsights [] = ⟨0, "-", 0, "Add an expense to get started!"⟩ :=
  rfl

/-- Claim C7: for a non-empty record sequence the computed total equals
the arithmetic sum of the amounts, and any permutation of the input
yields the same total. -/
theorem C7_total_sum (rs : List Expense) (h : rs ≠ []) :
    (updateInsights rs).totalSpend = (rs.map Expense.amount).sum
    ∧ ∀ rs2, List.Perm rs rs2 →
        (updateInsights rs2).totalSpend = (updateInsights rs).totalSpend := by
  have key : ∀ l : List Expense, l ≠ [] →
      (updateInsights l).totalSpend = (l.map Expense.amount).sum := by
    intro l hl
    obtain ⟨r, rest, rfl⟩ := List.exists_cons_of_ne_nil hl
    simp [updateInsights, totalSpendOf_eq_sum]
  refine ⟨key rs h, ?_⟩
  intro rs2 hperm
  have h2 : rs2 ≠ [] := by
    intro he
    subst he
    exact h hperm.eq_nil
  rw [key rs2 h2, key rs h]
  exact ((hperm.map Expense.amount).sum_eq).symm

/-- Claim C7, witness: the theorem applied to the spec's worked example. -/
theorem C7_total_sum_witness :
    (updateInsights exSpec).totalSpend = (exSpec.map Expense.amount).sum
    ∧ ∀ rs2, List.Perm exSpec rs2 →
        (updateInsights rs2).totalSpend = (updateInsights exSpec).totalSpend :=
  C7_total_sum exSpec (by simp [exSpec])

/-- Claim C8, counterexample: `id: Date.now()` stamps each record with
the submission's millisecond clock, so two valid submissions in the same
millisecond produce two records with the same id and the uniqueness
invariant fails. -/
theorem C8_counterexample :
    (submitAll st0 [inTime1000, inTime1000b]).expenses.map Expense.id = [1000, 1000]
    ∧ ¬ ((submitAll st0 [inTime1000, inTime1000b]).expenses.map Expense.id).Nodup :=
  ⟨rfl, by decide⟩

/-- Claim C8, amended: after any sequence of form submissions starting
from the empty ledger, the record ids are pairwise distinct provided the
`Date.now()` values of the submissions are pairwise distinct (each
accepted record's id is exactly its submission time). -/
theorem C8_unique_ids (inputs : List FormInput)
    (h : (inputs.map FormInput.now).Nodup) :
    ((submitAll st0 inputs).expenses.map Expense.id).Nodup := by
  obtain ⟨l, hl, hsub⟩ := submitAll_ids inputs st0
  rw [hl]
  have h0 : st0.expenses.map Expense.id = [] := rfl
  rw [h0, List.nil_append]
  exact h.sublist hsub

/-- Claim C8, witness: two submissions one millisecond apart keep the ids
distinct. -/
theorem C8_unique_ids_witness :
    ((submitAll st0 [inTime1000, inTime1001]).expenses.map Expense.id).Nodup :=
  C8_unique_ids [inTime1000, inTime1001] (by decide)

/-- Claim C9: `applyFilters` never changes the ledger array itself: the
spread on line 229 copies it before filtering, and the in-place sort runs
on the copy, so the `expenses` binding holds the same records in the same
order after the call. -/
theorem C9_no_mutation (es : List Expense) (c p : String) (now : NowTime) :
    (applyFilters es c p now).1 = es :=
  rfl

/-- Claim C10: the submit handler rejects exactly the submissions whose
amount parses to NaN or 0, or whose date or category is empty; a
rejected submission leaves the whole state (ledger and storage)
unchanged; and a strictly negative parsed amount passes validation and is
appended as-is. -/
theorem C10_validation (st : AppState) (a : Option ℚ) (d : Option Ymd)
    (c desc : String) (n : Int) :
    ((handleSubmit st a d c desc n).2 = false ↔
        (a = none ∨ a = some 0 ∨ d = none ∨ c = ""))
    ∧ ((handleSubmit st a d c desc n).2 = false → (handleSubmit st a d c desc n).1 = st)
    ∧ (∀ q : ℚ, ∀ dd : Ymd, a = some q → q < 0 → d = some dd → c ≠ "" →
        (handleSubmit st a d c desc n).2 = true
        ∧ (handleSubmit st a d c desc n).1.expenses
            = st.expenses ++ [⟨n, q, dd, c, desc⟩]
        ∧ (handleSubmit st a d c desc n).1.stored
            = st.expenses ++ [⟨n, q, dd, c, desc⟩]) := by
  rcases a with _ | q <;> rcases d with _ | dd
  · simp [handleSubmit]
  · simp [handleSubmit]
  · simp [handleSubmit]
  · by_cases hc : q = 0 ∨ c = ""
    · refine ⟨by simp [handleSubmit, hc], by simp [handleSubmit, hc], ?_⟩
      intro q2 dd2 hq2 hneg hdd2 hcne
      injection hq2 with hq2
      subst hq2
      rcases hc with hc | hc
      · exact absurd hc (ne_of_lt hneg)
      · exact absurd hc hcne
    · refine ⟨by simp [handleSubmit, hc], by simp [handleSubmit, hc], ?_⟩
      intro q2 dd2 hq2 hneg hdd2 hcne
      injection hq2 with hq2
      injection hdd2 with hdd2
      subst hq2
      subst hdd2
      refine ⟨by simp [handleSubmit, hc], by simp [handleSubmit, hc], by simp [handleSubmit, hc]⟩

end BudgetTracker
